import Mathlib

/-!
Verification of the document-ingestion pipeline in
`finreganalytics/dataprep/dataloading.py`.

Strings are embedded as `List Char` (Python `str` is a sequence of
characters).  The two regex substitutions of `clean` are embedded as
executable functions over `List Char`; the IEEE-754 binary64 division
`chunk_size / 10` performed by CPython is embedded exactly via
round-half-to-even integer arithmetic.  External collaborators
(the PDF partitioner, the HuggingFace tokenizer loader and the
langchain text splitter) are abstracted as function parameters, as the
repository only orchestrates them.
-/

namespace DataLoading

/-- Embeds `re.sub(r"\n", "", txt)` from `clean`
(dataloading.py line 49): delete every newline character. -/
def rmNl (l : List Char) : List Char :=
  l.filter (fun c => c != '\n')

/-- Embeds `re.sub(r" ?\.", ".", txt)` from `clean`
(dataloading.py line 50): scanning left to right, each (leftmost,
non-overlapping) match of an optional space followed by a period is
replaced by a period.  A match of `" ."` consumes two characters and
emits `"."`; a match of `"."` alone rewrites to itself, so the scan is
equivalent to the recursion below. -/
def sub2 : List Char → List Char
  | [] => []
  | [c] => [c]
  | c1 :: c2 :: rest =>
    if c1 = ' ' ∧ c2 = '.' then '.' :: sub2 rest
    else c1 :: sub2 (c2 :: rest)

/-- Embeds `clean` (dataloading.py lines 48-50): newline removal
followed by space-period collapsing. -/
def clean (l : List Char) : List Char :=
  sub2 (rmNl l)

/-- Decides whether the two-character substring `" ."` (space
immediately followed by a period) occurs in `l`. -/
def hasSpaceDot : List Char → Bool
  | c1 :: c2 :: rest => (c1 == ' ' && c2 == '.') || hasSpaceDot (c2 :: rest)
  | _ => false

/-- Decides whether the three-character substring `"  ."` (two spaces
immediately followed by a period) occurs in `l`. -/
def hasTwoSpaceDot : List Char → Bool
  | c1 :: c2 :: c3 :: rest =>
      (c1 == ' ' && c2 == ' ' && c3 == '.') || hasTwoSpaceDot (c2 :: c3 :: rest)
  | _ => false

/-- Decides whether `l` begins with one or more newlines immediately
followed by a period. -/
def nlThenDot : List Char → Bool
  | [] => false
  | c :: rest => c == '\n' && (rest.head? == some '.' || nlThenDot rest)

/-- Decides whether `l` contains a space followed by one or more
newlines followed by a period (the pattern on which the two
substitutions of `clean` interact). -/
def hasSpaceNlDot : List Char → Bool
  | [] => false
  | c :: rest => (c == ' ' && nlThenDot rest) || hasSpaceNlDot rest

/-- Fuel-driven floor of the base-2 logarithm (structural recursion so
that concrete instances reduce inside the kernel). -/
def log2Fuel : Nat → Nat → Nat
  | 0, _ => 0
  | fuel + 1, n => if n < 2 then 0 else log2Fuel fuel (n / 2) + 1

/-- Floor of the base-2 logarithm of `n` (the binary exponent of the
leading bit of a positive `n`). -/
def floorLog2 (n : Nat) : Nat := log2Fuel n n

/-- Round-half-to-even of the rational `a / b` (for `b > 0`): the
integer nearest to `a / b`, ties going to the even integer.  This is
the rounding CPython performs when dividing integers into a binary64
double. -/
def rhe (a b : Nat) : Nat :=
  if 2 * (a % b) < b then a / b
  else if b < 2 * (a % b) then a / b + 1
  else if (a / b) % 2 = 0 then a / b else a / b + 1

/-- Embeds the CPython expression `int(c / 10)` for a nonnegative
integer `c` (dataloading.py line 86): `c / 10` is the IEEE-754
binary64 double nearest to the exact rational value `c / 10` (round
half to even, 53-bit significand), and `int` truncates that double
toward zero.  `floorLog2 (c / 10)` is the binary exponent of the
quotient.  The model is exact below the binary64 overflow
threshold. -/
def pyIntDiv10 (c : Nat) : Nat :=
  if c < 10 then 0
  else if floorLog2 (c / 10) ≤ 52 then
    rhe (c * 2 ^ (52 - floorLog2 (c / 10))) 10 / 2 ^ (52 - floorLog2 (c / 10))
  else
    rhe c (10 * 2 ^ (floorLog2 (c / 10) - 52)) * 2 ^ (floorLog2 (c / 10) - 52)

/-- `int(c / 10)` for a Python `int` `c` of either sign: binary64
division and `int` truncation are both symmetric under negation. -/
def intDiv10F : Int → Int
  | Int.ofNat n => Int.ofNat (pyIntDiv10 n)
  | Int.negSucc n => -Int.ofNat (pyIntDiv10 (n + 1))

/-- The configuration passed to
`RecursiveCharacterTextSplitter.from_huggingface_tokenizer`
(dataloading.py lines 83-89). -/
structure SplitterConfig where
  chunk_size : Int
  chunk_overlap : Int
  add_start_index : Bool
  strip_whitespace : Bool

/-- The configuration built inside `split_udf`: `chunk_size` is passed
through unchanged, `chunk_overlap` is `int(chunk_size / 10)`, and the
two flags are `True` (dataloading.py lines 85-89).  No validation of
`chunk_size` is performed anywhere in the source. -/
def splitterConfigOf (chunk_size : Int) : SplitterConfig :=
  ⟨chunk_size, intDiv10F chunk_size, true, true⟩

/-- A langchain `Document`; only its `page_content` matters here. -/
structure Document where
  page_content : List Char

/-- Embeds the inner `split` helper (dataloading.py lines 74-78): wrap
the text into a single `Document`, hand the singleton list to the
external splitter's `split_documents`, and keep each returned chunk's
`page_content`.  The external splitter is a parameter. -/
def split_text (split_documents : List Document → List Document)
    (text : List Char) : List (List Char) :=
  (split_documents [⟨text⟩]).map Document.page_content

/-- Errors of the splitting stage, named after the spec's error
taxonomy.  `resolutionError` stands for a failure of
`AutoTokenizer.from_pretrained`; `configurationError` is the eager
validation error the spec prescribes (nothing in the source raises
it). -/
inductive StageError where
  | resolutionError
  | configurationError
  deriving DecidableEq

/-- Embeds the `explode(split_udf("text"))` projection (dataloading.py
line 93): one output row per chunk, tagged with the originating
document's path; a document whose chunk list is empty contributes no
rows. -/
def explodeRows (chunksOf : List Char → List (List Char))
    (docs : List (String × List Char)) : List (String × List Char) :=
  (docs.map (fun d => (chunksOf d.2).map (fun c => (d.1, c)))).flatten

/-- Embeds the `split` dataframe transformation (dataloading.py lines
66-93) over an abstract tokenizer type `Tok`.  `from_pretrained`
embeds `AutoTokenizer.from_pretrained` (the only fallible step, per
the spec's taxonomy) and `from_hf_tokenizer` embeds
`RecursiveCharacterTextSplitter.from_huggingface_tokenizer` composed
with the resulting splitter's `split_documents`.  Both run once,
before any row is touched, exactly as in `split_udf`. -/
def split_model {Tok : Type}
    (from_pretrained : String → Except StageError Tok)
    (from_hf_tokenizer : Tok → SplitterConfig → (List Document → List Document))
    (hf_tokenizer_name : String) (chunk_size : Int)
    (docs : List (String × List Char)) :
    Except StageError (List (String × List Char)) :=
  match from_pretrained hf_tokenizer_name with
  | Except.error e => Except.error e
  | Except.ok tok =>
      Except.ok (explodeRows
        (split_text (from_hf_tokenizer tok (splitterConfigOf chunk_size))) docs)

/-- Embeds the string `join` with a single `"\n"` separator. -/
def joinNl : List (List Char) → List Char
  | [] => []
  | [p] => p
  | p :: q :: ps => p ++ '\n' :: joinNl (q :: ps)

/-- Embeds `parse_and_clean_one_pdf` (dataloading.py lines 52-54) with
the external `partition_pdf` abstracted away: `frags` is the list of
fragment texts the partitioner returned for one document, each
fragment is cleaned, and the results are joined with single
newlines. -/
def parse_and_clean_one_pdf (frags : List (List Char)) : List Char :=
  joinNl (frags.map clean)

/-- Splits a character list at every newline (the inverse view of
`joinNl`), used to state that newlines occur in the assembled document
text only at fragment boundaries. -/
def splitNl : List Char → List (List Char)
  | [] => [[]]
  | c :: rest =>
    if c = '\n' then [] :: splitNl rest
    else
      match splitNl rest with
      | [] => [[c]]
      | p :: ps => (c :: p) :: ps

-- Basic equation lemmas.

@[simp] theorem rmNl_nil : rmNl [] = [] := rfl

theorem rmNl_cons_nl (r : List Char) : rmNl ('\n' :: r) = rmNl r := by
  simp [rmNl, List.filter]

theorem rmNl_cons (c : Char) (r : List Char) (h : c ≠ '\n') :
    rmNl (c :: r) = c :: rmNl r := by
  simp [rmNl, List.filter_cons, h]

@[simp] theorem sub2_nil : sub2 [] = [] := rfl

@[simp] theorem sub2_single (c : Char) : sub2 [c] = [c] := rfl

theorem sub2_space_dot (r : List Char) :
    sub2 (' ' :: '.' :: r) = '.' :: sub2 r := by
  simp [sub2]

theorem sub2_cons₂ (c1 c2 : Char) (r : List Char)
    (h : ¬(c1 = ' ' ∧ c2 = '.')) :
    sub2 (c1 :: c2 :: r) = c1 :: sub2 (c2 :: r) := by
  simp [sub2, h]

/-- Pushing `sub2` under a cons whenever the head cannot start a
two-character match. -/
theorem sub2_cons_of (c : Char) (x : List Char)
    (h : c ≠ ' ' ∨ x.head? ≠ some '.') :
    sub2 (c :: x) = c :: sub2 x := by
  cases x with
  | nil => rfl
  | cons c2 r =>
    apply sub2_cons₂
    rcases h with h | h
    · exact fun hc => h hc.1
    · exact fun hc => h (by simp [hc.2])

-- Newline-freeness of `clean`.

theorem sub2_mem_of (l : List Char) (c : Char) (hc : c ∈ sub2 l) :
    c ∈ l ∨ c = '.' := by
  induction l using sub2.induct with
  | case1 => simp at hc
  | case2 d => simp at hc; simp [hc]
  | case3 c1 c2 rest hif ih =>
      rw [sub2, if_pos hif] at hc
      rcases List.mem_cons.mp hc with h | h
      · exact Or.inr h
      · rcases ih h with h | h
        · exact Or.inl (by simp [h])
        · exact Or.inr h
  | case4 c1 c2 rest hif ih =>
      rw [sub2, if_neg hif] at hc
      rcases List.mem_cons.mp hc with h | h
      · exact Or.inl (by simp [h])
      · rcases ih h with h | h
        · exact Or.inl (by simpa using Or.inr (List.mem_cons.mp h))
        · exact Or.inr h

theorem rmNl_no_newline (l : List Char) : '\n' ∉ rmNl l := by
  intro hm
  have := List.of_mem_filter hm
  simp at this

theorem clean_no_newline (l : List Char) : '\n' ∉ clean l := by
  intro hm
  rcases sub2_mem_of (rmNl l) '\n' hm with h | h
  · exact rmNl_no_newline l h
  · exact absurd h (by decide)

-- `clean` is the identity on newline-free, period-free text.

theorem rmNl_id_of_no_newline (l : List Char) (h : '\n' ∉ l) :
    rmNl l = l := by
  apply List.filter_eq_self.mpr
  intro a ha
  simp only [bne_iff_ne, ne_eq]
  intro he
  exact h (he ▸ ha)

theorem sub2_id_of_no_dot (l : List Char) (h : '.' ∉ l) : sub2 l = l := by
  induction l using sub2.induct with
  | case1 => rfl
  | case2 d => rfl
  | case3 c1 c2 rest hif _ =>
      exact absurd (by simp [hif.2]) h
  | case4 c1 c2 rest hif ih =>
      rw [sub2, if_neg hif]
      rw [ih (fun hm => h (List.mem_cons.mpr (Or.inr hm)))]

-- What `sub2` leaves of space-dot patterns.

theorem hasSpaceDot_cons (c : Char) (x : List Char) (h : c ≠ ' ') :
    hasSpaceDot (c :: x) = hasSpaceDot x := by
  cases x with
  | nil => rfl
  | cons c2 r => simp [hasSpaceDot, h]

theorem sub2_head_dot (x : List Char) (h : (sub2 x).head? = some '.') :
    x.head? = some '.' ∨ ∃ y, x = ' ' :: '.' :: y := by
  match x with
  | [] => simp at h
  | [c] => simp at h; simp [h]
  | c1 :: c2 :: r =>
    by_cases hif : c1 = ' ' ∧ c2 = '.'
    · exact Or.inr ⟨r, by rw [hif.1, hif.2]⟩
    · rw [sub2_cons₂ c1 c2 r hif] at h
      simp at h
      simp [h]

theorem hasTwoSpaceDot_tail (c : Char) (r : List Char)
    (h : hasTwoSpaceDot (c :: r) = false) : hasTwoSpaceDot r = false := by
  match r with
  | [] => rfl
  | [c2] => rfl
  | c2 :: c3 :: rr =>
    rw [hasTwoSpaceDot] at h
    exact (Bool.or_eq_false_iff.mp h).2

theorem sub2_no_space_dot (l : List Char) (h : hasTwoSpaceDot l = false) :
    hasSpaceDot (sub2 l) = false := by
  induction l using sub2.induct with
  | case1 => rfl
  | case2 c => rfl
  | case3 c1 c2 rest hif ih =>
      rw [sub2, if_pos hif, hasSpaceDot_cons '.' _ (by decide)]
      exact ih (hasTwoSpaceDot_tail _ _ (hasTwoSpaceDot_tail _ _ h))
  | case4 c1 c2 rest hif ih =>
      rw [sub2, if_neg hif]
      by_cases h1 : c1 = ' '
      · have hc2 : c2 ≠ '.' := fun he => hif ⟨h1, he⟩
        subst h1
        cases hx : sub2 (c2 :: rest) with
        | nil => rfl
        | cons d ds =>
            have hd : d ≠ '.' := by
              intro he
              have hh : (sub2 (c2 :: rest)).head? = some '.' := by
                rw [hx, he]; rfl
              rcases sub2_head_dot _ hh with hh | ⟨y, hy⟩
              · exact hc2 (by simpa using hh)
              · have hc2' : c2 = ' ' := (List.cons.injEq _ _ _ _).mp hy |>.1
                have hr : rest = '.' :: y := (List.cons.injEq _ _ _ _).mp hy |>.2
                rw [hc2', hr] at h
                simp [hasTwoSpaceDot] at h
            have hrec : hasSpaceDot (' ' :: d :: ds) = hasSpaceDot (d :: ds) := by
              simp [hasSpaceDot, hd]
            rw [hrec, ← hx]
            exact ih (hasTwoSpaceDot_tail _ _ h)
      · rw [hasSpaceDot_cons c1 _ h1]
        exact ih (hasTwoSpaceDot_tail _ _ h)

-- Commutation analysis of the two substitutions of `clean`.

theorem hasSpaceNlDot_tail (c : Char) (r : List Char)
    (h : hasSpaceNlDot (c :: r) = false) : hasSpaceNlDot r = false := by
  rw [hasSpaceNlDot] at h
  exact (Bool.or_eq_false_iff.mp h).2

theorem nlThenDot_false_head (r : List Char)
    (h : nlThenDot ('\n' :: r) = false) : (rmNl r).head? ≠ some '.' := by
  induction r with
  | nil => simp [rmNl]
  | cons c r' ih =>
    rw [nlThenDot] at h
    simp only [beq_self_eq_true, Bool.true_and, Bool.or_eq_false_iff] at h
    by_cases hc : c = '\n'
    · subst hc
      rw [rmNl_cons_nl]
      exact ih h.2
    · rw [rmNl_cons c r' hc]
      simp only [List.head?_cons, ne_eq, Option.some.injEq]
      intro he
      rw [he] at h
      simp at h

theorem sub2_rmNl_comm_aux : ∀ (n : Nat) (l : List Char), l.length ≤ n →
    hasSpaceNlDot l = false → sub2 (rmNl l) = rmNl (sub2 l) := by
  intro n
  induction n with
  | zero =>
    intro l hl _
    rw [List.length_eq_zero.mp (Nat.le_zero.mp hl)]
    rfl
  | succ n ih =>
    intro l hl h
    match l with
    | [] => rfl
    | c :: r =>
      have hr : hasSpaceNlDot r = false := hasSpaceNlDot_tail c r h
      have hlen : r.length ≤ n := by
        simp only [List.length_cons] at hl; omega
      by_cases hc : c = '\n'
      · subst hc
        rw [rmNl_cons_nl, sub2_cons_of '\n' r (Or.inl (by decide)),
          rmNl_cons_nl]
        exact ih r hlen hr
      · by_cases hsp : c = ' '
        · subst hsp
          match r with
          | [] => decide
          | c2 :: r' =>
            have hr' : hasSpaceNlDot r' = false := hasSpaceNlDot_tail _ _ hr
            have hlen' : r'.length ≤ n := by
              simp only [List.length_cons] at hl; omega
            by_cases hdot : c2 = '.'
            · subst hdot
              rw [rmNl_cons ' ' _ (by decide), rmNl_cons '.' _ (by decide),
                sub2_space_dot, sub2_space_dot,
                rmNl_cons '.' _ (by decide)]
              rw [ih r' hlen' hr']
            · by_cases hnl : c2 = '\n'
              · subst hnl
                have hnd : nlThenDot ('\n' :: r') = false := by
                  rw [hasSpaceNlDot] at h
                  have := (Bool.or_eq_false_iff.mp h).1
                  simpa using this
                have hhead := nlThenDot_false_head r' hnd
                rw [rmNl_cons ' ' _ (by decide), rmNl_cons_nl,
                  sub2_cons_of ' ' (rmNl r') (Or.inr hhead),
                  sub2_cons_of ' ' ('\n' :: r') (Or.inr (by simp)),
                  sub2_cons_of '\n' r' (Or.inl (by decide)),
                  rmNl_cons ' ' _ (by decide), rmNl_cons_nl]
                rw [ih r' hlen' hr']
              · have hlen2 : (c2 :: r').length ≤ n := by
                  simp only [List.length_cons] at hl ⊢; omega
                rw [rmNl_cons ' ' _ (by decide), rmNl_cons c2 _ hnl,
                  sub2_cons_of ' ' (c2 :: rmNl r')
                    (Or.inr (by simpa using hdot)),
                  sub2_cons_of ' ' (c2 :: r')
                    (Or.inr (by simpa using hdot)),
                  rmNl_cons ' ' _ (by decide), ← rmNl_cons c2 r' hnl]
                rw [ih (c2 :: r') hlen2 hr]
        · rw [rmNl_cons c r hc, sub2_cons_of c (rmNl r) (Or.inl hsp),
            sub2_cons_of c r (Or.inl hsp), rmNl_cons c _ hc]
          rw [ih r hlen hr]

theorem sub2_rmNl_comm (l : List Char) (h : hasSpaceNlDot l = false) :
    sub2 (rmNl l) = rmNl (sub2 l) :=
  sub2_rmNl_comm_aux l.length l le_rfl h

-- Arithmetic facts about the binary64 model of `int(chunk_size / 10)`.

theorem log2Fuel_spec : ∀ (fuel n : Nat), n ≤ fuel → 1 ≤ n →
    2 ^ log2Fuel fuel n ≤ n ∧ n < 2 ^ (log2Fuel fuel n + 1) := by
  intro fuel
  induction fuel with
  | zero => intro n h1 h2; omega
  | succ fuel ih =>
    intro n h1 h2
    by_cases hn : n < 2
    · have hone : n = 1 := by omega
      subst hone
      simp [log2Fuel]
    · simp only [log2Fuel]
      rw [if_neg hn]
      have hfuel : n / 2 ≤ fuel := by omega
      have h1' : 1 ≤ n / 2 := by omega
      obtain ⟨lo, hi⟩ := ih (n / 2) hfuel h1'
      have hpow : 2 ^ (log2Fuel fuel (n / 2) + 1) =
          2 * 2 ^ log2Fuel fuel (n / 2) := by ring
      have hpow2 : 2 ^ (log2Fuel fuel (n / 2) + 1 + 1) =
          2 * 2 ^ (log2Fuel fuel (n / 2) + 1) := by ring
      omega

theorem floorLog2_lt (n k : Nat) (hn : n ≠ 0) :
    floorLog2 n < k ↔ n < 2 ^ k := by
  unfold floorLog2
  obtain ⟨lo, hi⟩ := log2Fuel_spec n n le_rfl (by omega)
  constructor
  · intro h
    exact lt_of_lt_of_le hi (Nat.pow_le_pow_right (by decide) (by omega))
  · intro h
    have hp : 2 ^ floorLog2 n < 2 ^ k := lt_of_le_of_lt lo h
    exact (Nat.pow_lt_pow_iff_right (by decide)).mp hp

theorem rhe10_bounds (a : Nat) :
    a / 10 ≤ rhe a 10 ∧ rhe a 10 ≤ (a + 5) / 10 := by
  unfold rhe
  split
  · omega
  · split
    · omega
    · split <;> omega

/-- Truncating the correctly rounded 53-bit approximation of `c / 10`
recovers exact integer division whenever at least three guard bits are
available (`8 ≤ s`, with `s` the scaling power of two). -/
theorem rhe_mul_div (c s : Nat) (hs : 8 ≤ s) :
    rhe (c * s) 10 / s = c / 10 := by
  have h10 : (0 : Nat) < 10 := by decide
  obtain ⟨lo, hi⟩ := rhe10_bounds (c * s)
  have hks : c / 10 * s ≤ rhe (c * s) 10 := by
    refine le_trans ?_ lo
    rw [Nat.le_div_iff_mul_le h10]
    have hdm : c / 10 * 10 ≤ c := Nat.div_mul_le_self c 10
    calc c / 10 * s * 10 = c / 10 * 10 * s := by ring
      _ ≤ c * s := Nat.mul_le_mul_right s hdm
  have hup : rhe (c * s) 10 < (c / 10 + 1) * s := by
    refine lt_of_le_of_lt hi ?_
    rw [Nat.div_lt_iff_lt_mul h10]
    have hc : 10 * (c / 10) + c % 10 = c := Nat.div_add_mod c 10
    have hmod9 : c % 10 ≤ 9 := by omega
    have hmod : c % 10 * s ≤ 9 * s := Nat.mul_le_mul_right s hmod9
    have hfin : 9 * s + 5 < 10 * s := by omega
    calc c * s + 5 = (10 * (c / 10) + c % 10) * s + 5 := by rw [hc]
      _ = 10 * (c / 10) * s + (c % 10 * s + 5) := by ring
      _ < 10 * (c / 10) * s + 10 * s :=
          Nat.add_lt_add_left
            (lt_of_le_of_lt (Nat.add_le_add_right hmod 5) hfin) _
      _ = (c / 10 + 1) * s * 10 := by ring
  exact Nat.div_eq_of_lt_le hks hup

/-- For every `c` up to `2 ^ 53` the truncated binary64 quotient
`int(c / 10)` agrees with exact integer division `c // 10`. -/
theorem pyIntDiv10_eq_div (n : Nat) (h : n ≤ 2 ^ 53) :
    pyIntDiv10 n = n / 10 := by
  unfold pyIntDiv10
  by_cases hlt : n < 10
  · rw [if_pos hlt, Nat.div_eq_of_lt hlt]
  · rw [if_neg hlt]
    have hne : n / 10 ≠ 0 := by omega
    have hbound : n / 10 < 2 ^ 50 := by
      have h53 : (2 : Nat) ^ 53 = 9007199254740992 := by norm_num
      have h50 : (2 : Nat) ^ 50 = 1125899906842624 := by norm_num
      omega
    have hlog : floorLog2 (n / 10) < 50 :=
      (floorLog2_lt (n / 10) 50 hne).mpr hbound
    rw [if_pos (by omega)]
    refine rhe_mul_div n (2 ^ (52 - floorLog2 (n / 10))) ?_
    have h3 : 3 ≤ 52 - floorLog2 (n / 10) := by omega
    calc (8 : Nat) = 2 ^ 3 := by norm_num
      _ ≤ 2 ^ (52 - floorLog2 (n / 10)) :=
          Nat.pow_le_pow_right (by decide) h3

-- Newlines of the assembled document text sit exactly at fragment
-- boundaries.

theorem splitNl_of_no_newline (p : List Char) (h : '\n' ∉ p) :
    splitNl p = [p] := by
  induction p with
  | nil => rfl
  | cons c r ih =>
    have hc : c ≠ '\n' := fun he => h (by simp [he])
    have hr : '\n' ∉ r := fun hm => h (List.mem_cons.mpr (Or.inr hm))
    simp only [splitNl]
    rw [if_neg hc, ih hr]

theorem splitNl_append (p rest : List Char) (h : '\n' ∉ p) :
    splitNl (p ++ '\n' :: rest) = p :: splitNl rest := by
  induction p with
  | nil => simp [splitNl]
  | cons c q ih =>
    have hc : c ≠ '\n' := fun he => h (by simp [he])
    have hq : '\n' ∉ q := fun hm => h (List.mem_cons.mpr (Or.inr hm))
    simp only [List.cons_append, splitNl, List.append_eq]
    rw [if_neg hc, ih hq]

theorem splitNl_joinNl (ps : List (List Char)) (hne : ps ≠ [])
    (h : ∀ p ∈ ps, '\n' ∉ p) : splitNl (joinNl ps) = ps := by
  induction ps with
  | nil => exact absurd rfl hne
  | cons p qs ih =>
    cases qs with
    | nil => exact splitNl_of_no_newline p (h p (by simp))
    | cons q rs =>
      rw [joinNl, splitNl_append _ _ (h p (by simp))]
      rw [ih (by simp) (fun x hx => h x (List.mem_cons.mpr (Or.inr hx)))]

-- The flattening law of the splitting stage.

theorem explodeRows_length (chunksOf : List Char → List (List Char))
    (docs : List (String × List Char)) :
    (explodeRows chunksOf docs).length
      = (docs.map (fun d => (chunksOf d.2).length)).sum := by
  unfold explodeRows
  rw [List.length_flatten]
  simp [Function.comp_def]

-- Tests of the embedding on the spec's own examples.

example : clean "Hello .World".data = "Hello.World".data := by decide

example : clean "Second sentence .".data = "Second sentence.".data := by decide

example : clean "  .".data = " .".data := by decide

example : pyIntDiv10 12345 = 1234 := by decide

example : pyIntDiv10 99999999999999999 = 10000000000000000 := by decide

-- Claims.

/-- Claim C1, counterexample: `clean` deletes only one space in front
of a period, so on the input `"  ."` (two spaces and a period) its
output `" ."` still contains the substring `" ."`, refuting the claim
that no output of `clean` contains a space-period pair. -/
theorem clean_space_dot_counterexample :
    clean "  .".data = " .".data ∧ hasSpaceDot (clean "  .".data) = true := by
  decide

/-- Claim C1 (amended): for every input whose newline-stripped form
never has two consecutive spaces immediately before a period, the
output of `clean` contains no occurrence of the substring `" ."`; and
in particular `clean "Hello .World" = "Hello.World"`. -/
theorem clean_space_dot_single_space :
    (∀ t : List Char, hasTwoSpaceDot (rmNl t) = false →
        hasSpaceDot (clean t) = false) ∧
    clean "Hello .World".data = "Hello.World".data :=
  ⟨fun t h => sub2_no_space_dot (rmNl t) h, by decide⟩

/-- Claim C1 witness: the amended theorem applied to the concrete
input `" .a .b."`. -/
theorem clean_space_dot_single_space_witness :
    hasTwoSpaceDot (rmNl " .a .b.".data) = false ∧
    hasSpaceDot (clean " .a .b.".data) = false :=
  ⟨by decide, clean_space_dot_single_space.1 " .a .b.".data (by decide)⟩

/-- Claim C2, counterexample: on the input `" \n."` applying newline
removal first and space-period collapsing second gives `"."`, while
the opposite order gives `" ."`; the two substitutions do not commute
on every string. -/
theorem subs_commute_counterexample :
    sub2 (rmNl " \n.".data) ≠ rmNl (sub2 " \n.".data) := by decide

/-- Claim C2 (amended): the two global substitutions of `clean`
commute on every string that contains no space followed by a run of
newlines followed by a period (deleting such a run is the only way
newline removal can manufacture a new space-period match). -/
theorem subs_commute_no_space_nl_dot (t : List Char)
    (h : hasSpaceNlDot t = false) :
    sub2 (rmNl t) = rmNl (sub2 t) :=
  sub2_rmNl_comm t h

/-- Claim C2 witness: the amended theorem applied to the concrete
input `"a \nb."`. -/
theorem subs_commute_no_space_nl_dot_witness :
    hasSpaceNlDot "a \nb.".data = false ∧
    sub2 (rmNl "a \nb.".data) = rmNl (sub2 "a \nb.".data) :=
  ⟨by decide, subs_commute_no_space_nl_dot "a \nb.".data (by decide)⟩

/-- Claim C3, counterexample: the source computes the overlap as
`int(chunk_size / 10)` with binary64 float division, so at
`chunk_size = 99999999999999999` the overlap is `10 ^ 16` while exact
integer division gives `10 ^ 16 - 1`; the claim fails for large
`chunk_size`. -/
theorem chunk_overlap_div10_counterexample :
    (splitterConfigOf (Int.ofNat 99999999999999999)).chunk_overlap ≠
      Int.ofNat (99999999999999999 / 10) := by decide

/-- Claim C3 (amended): for every positive `chunk_size` up to `2 ^ 53`
(the range where binary64 rounding cannot cross an integer boundary of
the quotient), the configured overlap `int(chunk_size / 10)` equals
exact truncated integer division `chunk_size // 10`. -/
theorem chunk_overlap_div10_small (n : Nat) (h0 : 0 < n)
    (h : n ≤ 2 ^ 53) :
    (splitterConfigOf (Int.ofNat n)).chunk_overlap = Int.ofNat (n / 10) := by
  show intDiv10F (Int.ofNat n) = Int.ofNat (n / 10)
  show Int.ofNat (pyIntDiv10 n) = Int.ofNat (n / 10)
  exact congrArg Int.ofNat (pyIntDiv10_eq_div n h)

/-- Claim C3 witness: the amended theorem applied to
`chunk_size = 12345`. -/
theorem chunk_overlap_div10_small_witness :
    0 < 12345 ∧ 12345 ≤ 2 ^ 53 ∧
    (splitterConfigOf (Int.ofNat 12345)).chunk_overlap = Int.ofNat 1234 :=
  ⟨by decide, by decide,
    chunk_overlap_div10_small 12345 (by decide) (by decide)⟩

/-- Claim C4: for every nonempty fragment list returned by the PDF
partitioner, the document text assembled by `parse_and_clean_one_pdf`
is the newline-join of the cleaned fragments, and splitting it at
newlines recovers exactly the cleaned fragments — newlines occur only
at fragment boundaries, never inside a cleaned fragment. -/
theorem loader_join_split_roundtrip (frags : List (List Char))
    (h : frags ≠ []) :
    parse_and_clean_one_pdf frags = joinNl (frags.map clean) ∧
    splitNl (parse_and_clean_one_pdf frags) = frags.map clean := by
  refine ⟨rfl, ?_⟩
  apply splitNl_joinNl
  · simpa using h
  · intro p hp
    obtain ⟨f, _, rfl⟩ := List.mem_map.mp hp
    exact clean_no_newline f

/-- Claim C4 witness: the round-trip theorem applied to the spec's
end-to-end fragment list. -/
theorem loader_join_split_roundtrip_witness :
    ["Hello \n.World".data, "Second sentence .".data] ≠
        ([] : List (List Char)) ∧
    splitNl (parse_and_clean_one_pdf
        ["Hello \n.World".data, "Second sentence .".data]) =
      ["Hello.World".data, "Second sentence.".data] := by
  refine ⟨by decide, ?_⟩
  have hr := (loader_join_split_roundtrip
    ["Hello \n.World".data, "Second sentence .".data] (by decide)).2
  rw [hr]
  decide

/-- Claim C5: the output of `clean` never contains a newline
character. -/
theorem clean_output_newline_free (t : List Char) : '\n' ∉ clean t :=
  clean_no_newline t

/-- Claim C6: the splitting stage emits one output row per chunk of
the per-document `split_text` list (zero rows when the list is empty),
so the row count of the exploded output table is the sum of the
per-document chunk-list lengths; the second conjunct is the
per-document instance. -/
theorem split_stage_row_count
    (split_documents : List Document → List Document)
    (docs : List (String × List Char)) :
    (explodeRows (split_text split_documents) docs).length
      = (docs.map (fun d => (split_text split_documents d.2).length)).sum ∧
    ∀ (p : String) (t : List Char),
      (explodeRows (split_text split_documents) [(p, t)]).length
        = (split_text split_documents t).length := by
  refine ⟨explodeRows_length _ docs, fun p t => ?_⟩
  rw [explodeRows_length]
  simp

/-- Claim C7: contrary to the spec's prescription, `split` performs no
eager validation of `chunk_size`.  With the non-positive
`chunk_size = 0` the stage returns normally — it never raises a
`ConfigurationError` — and the configuration handed to the external
splitter carries `chunk_size = 0` unchanged. -/
theorem split_no_chunk_size_validation :
    split_model (fun _ => Except.ok ()) (fun _ _ => id) "tok" 0
        [("p", "abc".data)] = Except.ok [("p", "abc".data)] ∧
    (splitterConfigOf 0).chunk_size = 0 ∧
    (splitterConfigOf 0).chunk_overlap = 0 :=
  ⟨rfl, rfl, rfl⟩

/-- Claim C8: if `AutoTokenizer.from_pretrained` fails for the named
tokenizer, the whole splitting stage fails with that resolution error,
whatever the input rows are: resolution happens once, before any row
is processed, and no retry is attempted. -/
theorem split_resolution_failure_fatal {Tok : Type}
    (from_pretrained : String → Except StageError Tok)
    (from_hf_tokenizer : Tok → SplitterConfig → (List Document → List Document))
    (hf_tokenizer_name : String) (chunk_size : Int) (e : StageError)
    (h : from_pretrained hf_tokenizer_name = Except.error e) :
    ∀ docs, split_model from_pretrained from_hf_tokenizer
        hf_tokenizer_name chunk_size docs = Except.error e := by
  intro docs
  unfold split_model
  rw [h]

/-- Claim C8 witness: a resolver that fails on `"bert"` makes the
stage fail on a concrete nonempty input. -/
theorem split_resolution_failure_fatal_witness :
    (fun _ : String => (Except.error StageError.resolutionError :
        Except StageError Unit)) "bert"
      = Except.error StageError.resolutionError ∧
    split_model (fun _ : String => (Except.error StageError.resolutionError :
        Except StageError Unit)) (fun _ _ => id) "bert" 512
        [("p", "abc".data)]
      = Except.error StageError.resolutionError :=
  ⟨rfl, split_resolution_failure_fatal _ _ "bert" 512
    StageError.resolutionError rfl [("p", "abc".data)]⟩

/-- Claim C9: `clean` maps the empty string to the empty string. -/
theorem clean_empty : clean "".data = "".data := rfl

/-- Claim C10: `clean` is the identity on every string containing
neither a newline nor a period. -/
theorem clean_id_on_plain_text (t : List Char) (h1 : '\n' ∉ t)
    (h2 : '.' ∉ t) : clean t = t := by
  unfold clean
  rw [rmNl_id_of_no_newline t h1, sub2_id_of_no_dot t h2]

/-- Claim C10 witness: the identity theorem applied to the concrete
input `"Hello World"`. -/
theorem clean_id_on_plain_text_witness :
    '\n' ∉ "Hello World".data ∧ '.' ∉ "Hello World".data ∧
    clean "Hello World".data = "Hello World".data :=
  ⟨by decide, by decide,
    clean_id_on_plain_text "Hello World".data (by decide) (by decide)⟩

end DataLoading
